import Mathlib

/-!
Verification of the Dr. Ash QEEG pipeline (dr_ash_ai_pipeline.py).

The numerical core is embedded shallowly over exact rationals:

* a PSD estimate is a finite list of (frequency, power) bins, the shape of
  the pair of index-aligned arrays returned by scipy.signal.welch;
* the Welch estimator and the zero-phase filter (scipy.signal.filtfilt)
  are third-party collaborators, modelled as explicit function parameters;
* exceptions raised inside analyze_edf are modelled with Except: an error
  in one channel makes the whole call an error, exactly as an uncaught
  Python exception unwinds out of the loop.
-/

namespace DrAsh

/-- A power-spectral-density estimate: index-aligned (frequency, power) bins,
as returned by scipy.signal.welch at line 34 of the source. -/
abbrev PSD := List (ℚ × ℚ)

/-- A Welch-estimator model: signal and sample rate to PSD bins.  The real
estimator (scipy.signal.welch with nperseg = window_sec * sf) is opaque
third-party code, so the pipeline is parametrised by it. -/
abbrev WelchModel := List ℚ → ℚ → PSD

/-- A zero-phase filter model: scipy.signal.filtfilt applied with the
4th-order Butterworth band-pass coefficients of line 50. -/
abbrev FiltModel := List ℚ → List ℚ

/-- np.mean: arithmetic mean of a sample sequence. -/
def mean (xs : List ℚ) : ℚ := xs.sum / (xs.length : ℚ)

/-- Line 49 of the source: signal = signal - np.mean(signal). -/
def demean (xs : List ℚ) : List ℚ := xs.map (fun x => x - mean xs)

/-- np.trapz(y, x) on index-aligned bins: the trapezoidal rule
sum of (x_next - x_cur) * (y_cur + y_next) / 2 over consecutive bins. -/
def trapz : PSD → ℚ
  | p :: q :: rest => (q.1 - p.1) * (p.2 + q.2) / 2 + trapz (q :: rest)
  | _ => 0

/-- Line 35 of the source: np.logical_and(freqs >= band[0], freqs <= band[1]),
kept as a filter on the aligned (frequency, power) bins. -/
def bandSelect (lo hi : ℚ) (psd : PSD) : PSD :=
  psd.filter (fun p => decide (lo ≤ p.1 ∧ p.1 ≤ hi))

/-- Lines 35-36 of the source applied to a PSD estimate: select the bins
inside the band (inclusive at both ends) and integrate trapezoidally. -/
def bandpowerPSD (psd : PSD) (lo hi : ℚ) : ℚ :=
  trapz (bandSelect lo hi psd)

/-- np.trapz(y, x) in the source's two-parallel-arrays form. -/
def trapzXY : List ℚ → List ℚ → ℚ
  | y1 :: y2 :: ys, x1 :: x2 :: xs => (x2 - x1) * (y1 + y2) / 2 + trapzXY (y2 :: ys) (x2 :: xs)
  | _, _ => 0

/-- The boolean-mask selection psd[idx_band], freqs[idx_band] of line 35,
on the two index-aligned arrays: filter the zipped bins, then project. -/
def maskSelect (freqs vals : List ℚ) (lo hi : ℚ) : List ℚ × List ℚ :=
  let kept := (freqs.zip vals).filter (fun p => decide (lo ≤ p.1 ∧ p.1 ≤ hi))
  (kept.map (fun p => p.1), kept.map (fun p => p.2))

/-- Lines 33-36 of the source, bandpower's body after the welch call, kept in
the numpy two-array form: mask both arrays, then np.trapz(psd[idx], freqs[idx]). -/
def bandpowerArrays (freqs vals : List ℚ) (lo hi : ℚ) : ℚ :=
  trapzXY (maskSelect freqs vals lo hi).2 (maskSelect freqs vals lo hi).1

/-- bandpower(data, sf, band) of lines 33-36, with the welch call abstracted:
estimate the PSD of the data, then integrate over the band.  The function is
total: the source has no length check before the welch call. -/
def bandpower (welch : WelchModel) (data : List ℚ) (sf lo hi : ℚ) : ℚ :=
  bandpowerPSD (welch data sf) lo hi

/-- EEG_BANDS at lines 14-20, in the source's insertion order. -/
def EEG_BANDS : List (String × ℚ × ℚ) :=
  [("Delta", 1, 4), ("Theta", 4, 8), ("Alpha", 8, 12),
   ("Beta", 12, 30), ("High Beta", 30, 45)]

/-- BRODMANN_MAP at lines 23-28. -/
def BRODMANN_MAP : List (String × List String) :=
  [("Fp1", ["BA10", "BA11"]), ("Fp2", ["BA10", "BA11"]),
   ("F3", ["BA6", "BA8"]), ("F4", ["BA6", "BA8"]),
   ("C3", ["BA1", "BA2", "BA3", "BA4"]), ("C4", ["BA1", "BA2", "BA3", "BA4"]),
   ("O1", ["BA17", "BA18"]), ("O2", ["BA17", "BA18"])]

/-- BRODMANN_MAP.get(ch, []) at line 119: region lookup defaulting to the
empty list for unmapped channels. -/
def regionsFor (ch : String) : List String :=
  (List.lookup ch BRODMANN_MAP).getD []

/-- Line 57's value for one band given this channel's broadband total:
bp / total_power if total_power > 0 else 0. -/
def relPowerOf (psd : PSD) (total lo hi : ℚ) : ℚ :=
  if 0 < total then bandpowerPSD psd lo hi / total else 0

/-- Lines 53-57: the per-channel profile built from the filtered signal.
total_power is integrated once over the broadband [1, 45]; each canonical
band's relative power is stored under its name, in EEG_BANDS order.  All
bandpower calls re-run welch on the same (signal, sf), which is
deterministic, so they share one PSD estimate. -/
def channelProfile (welch : WelchModel) (signal : List ℚ) (fs : ℚ) :
    List (String × ℚ) :=
  let psd := welch signal fs
  let total := bandpowerPSD psd 1 45
  EEG_BANDS.map (fun b => (b.1, relPowerOf psd total b.2.1 b.2.2))

/-- The error kinds named by the analysis (spec section 7); the source
surfaces them as untyped exceptions from scipy. -/
inductive AnalysisError
  | InvalidSampleRate
  | InsufficientSamples
  deriving DecidableEq, Repr

/-- Lines 49-51: de-mean, design the Butterworth band-pass with normalized
corners 1/(fs/2) and 45/(fs/2), and filter.  scipy.signal.butter validates
that each digital critical frequency lies strictly between 0 and 1 and
raises ValueError otherwise; that validation is modelled here as the
InvalidSampleRate failure, and the filtfilt call is the abstract model. -/
def filterStage (fm : FiltModel) (signal : List ℚ) (fs : ℚ) :
    Except AnalysisError (List ℚ) :=
  if 0 < 1 / (fs / 2) ∧ 1 / (fs / 2) < 1 ∧ 0 < 45 / (fs / 2) ∧ 45 / (fs / 2) < 1 then
    .ok (fm (demean signal))
  else
    .error .InvalidSampleRate

/-- One recording channel: label, sample rate, raw samples (the data the
EdfReader handle exposes per channel at lines 42-48). -/
abbrev Channel := String × ℚ × List ℚ

/-- The per-channel loop of lines 46-59.  There is no try/except around the
body, so a failure in any channel's filter step propagates out of the whole
loop: the Except is threaded, and an error in one channel makes the entire
result an error with no partial profiles. -/
def analyzeChannels (welch : WelchModel) (fm : FiltModel) :
    List Channel → Except AnalysisError (List (String × List (String × ℚ)))
  | [] => .ok []
  | ch :: rest =>
    match filterStage fm ch.2.2 ch.2.1 with
    | .error e => .error e
    | .ok filtered =>
      match analyzeChannels welch fm rest with
      | .error e => .error e
      | .ok others => .ok ((ch.1, channelProfile welch filtered ch.2.1) :: others)

/-- analyze_edf at lines 39-62, on the channels the recording handle
exposes: run the per-channel loop; its error, if any, is the uncaught
exception escaping the function. -/
def analyze_edf (welch : WelchModel) (fm : FiltModel) (channels : List Channel) :
    Except AnalysisError (List (String × List (String × ℚ))) :=
  analyzeChannels welch fm channels

/-- Whether f.close() at line 61 runs: it sits after the loop on the straight
line of the function body, with no try/finally or context manager, so it is
reached exactly when every channel was processed without an exception. -/
def closesHandle (welch : WelchModel) (fm : FiltModel) (channels : List Channel) :
    Bool :=
  match analyzeChannels welch fm channels with
  | .ok _ => true
  | .error _ => false

/-- Modelled from the spec: the Spectral Estimator's explicit
InsufficientSamples guard of spec section 4.2 ("Segment length must not
exceed total signal length; if it does, fail with InsufficientSamples").
The source's bandpower at lines 33-34 has no such guard: it hands
nperseg = window_sec * sf straight to scipy.signal.welch, which clamps an
oversized nperseg to the signal length with a UserWarning and still
returns a PSD. -/
def spectralEstimateChecked (welch : WelchModel) (windowSec sf : ℚ)
    (data : List ℚ) : Except AnalysisError PSD :=
  if (data.length : ℚ) < windowSec * sf then .error .InsufficientSamples
  else .ok (welch data sf)

/-- The inner loop of lines 117-123: for each (band, val) of one channel's
profile, emit the event exactly when val > 0.3, carrying the Brodmann
lookup for the channel. -/
def annotateChannel (ch : String) : List (String × ℚ) → List (String × String × List String)
  | [] => []
  | bv :: rest =>
    (if (3 : ℚ) / 10 < bv.2 then [(ch, bv.1, regionsFor ch)] else []) ++
      annotateChannel ch rest

/-- The auto-interpretation loop of lines 116-123: iterate the channels of
edf_results in insertion order, and within each channel its bands in the
profile's stored order, emitting one event per above-threshold pair. -/
def autoAnnotationEvents :
    List (String × List (String × ℚ)) → List (String × String × List String)
  | [] => []
  | cb :: rest => annotateChannel cb.1 cb.2 ++ autoAnnotationEvents rest

/-- Whether an uploaded file name takes the .edf branch at line 167. -/
def isEdfName (name : String) : Bool := name.endsWith ".edf"

/-- The upload loop of lines 160-170, restricted to the edf_results
variable: it starts as the empty dict, and each .edf upload REASSIGNS it to
that file's fresh analysis (line 168); non-.edf uploads leave it alone.
analyze abstracts analyze_edf composed with the temp-file round trip, and
none models the initial falsy empty dict. -/
def finalEdfResults {α : Type} (analyze : String → α) (files : List String) :
    Option α :=
  files.foldl (fun acc name => if isEdfName name then some (analyze name) else acc) none

/-- A concrete stand-in estimator used to evaluate the model on closed
inputs: one bin per sample at frequency 1 carrying the squared sample. -/
def demoWelch : WelchModel := fun data _ =>
  data.enum.map (fun ix => ((ix.1 : ℚ) + 1, ix.2 * ix.2))

/-- A concrete stand-in zero-phase filter for closed evaluations: the
identity pass-through. -/
def demoFilt : FiltModel := fun xs => xs

/-- Projecting aligned bins back to two arrays and integrating with the
two-array trapezoid equals integrating the bins directly. -/
lemma trapzXY_map (l : PSD) :
    trapzXY (l.map (fun p => p.2)) (l.map (fun p => p.1)) = trapz l := by
  induction l with
  | nil => rfl
  | cons a t ih =>
    cases t with
    | nil => rfl
    | cons b t2 =>
      simp only [List.map_cons, trapzXY, trapz] at ih ⊢
      rw [ih]

/-- The value channelProfile stores under a canonical band's name. -/
lemma channelProfile_lookup (welch : WelchModel) (signal : List ℚ) (fs : ℚ)
    (name : String) (lo hi : ℚ) (hmem : (name, lo, hi) ∈ EEG_BANDS) :
    List.lookup name (channelProfile welch signal fs) =
      some (relPowerOf (welch signal fs) (bandpowerPSD (welch signal fs) 1 45) lo hi) := by
  fin_cases hmem <;> rfl

/-- C1: for every channel signal and canonical band, the relative power the
analysis stores equals the band's integrated power divided by the broadband
[1,45] power when that broadband power is strictly positive, and is exactly
0 when it is not (the computation is total, so no exception arises in the
zero case). -/
theorem c1_relative_power_formula (welch : WelchModel) (signal : List ℚ) (fs : ℚ)
    (name : String) (lo hi : ℚ) (hmem : (name, lo, hi) ∈ EEG_BANDS) :
    List.lookup name (channelProfile welch signal fs) =
      some (if 0 < bandpower welch signal fs 1 45 then
        bandpower welch signal fs lo hi / bandpower welch signal fs 1 45 else 0) := by
  rw [channelProfile_lookup welch signal fs name lo hi hmem]; rfl

/-- C1 witness: the formula instantiated on a concrete recording. -/
theorem c1_relative_power_formula_witness :
    List.lookup "Delta" (channelProfile demoWelch [1] 4) =
      some (if 0 < bandpower demoWelch [1] 4 1 45 then
        bandpower demoWelch [1] 4 1 4 / bandpower demoWelch [1] 4 1 45 else 0) :=
  c1_relative_power_formula demoWelch [1] 4 "Delta" 1 4 (by decide)

/-- C3: when the 45 Hz upper corner reaches or exceeds Nyquist (fs / 2),
the filter stage fails with InvalidSampleRate instead of producing a
filtered signal. -/
theorem c3_low_sample_rate_fails_filter (fm : FiltModel) (signal : List ℚ)
    (fs : ℚ) (hpos : 0 < fs) (hnyq : fs / 2 ≤ 45) :
    filterStage fm signal fs = .error .InvalidSampleRate := by
  have h2 : (0 : ℚ) < fs / 2 := by positivity
  have h1 : (1 : ℚ) ≤ 45 / (fs / 2) := (one_le_div h2).mpr hnyq
  unfold filterStage
  rw [if_neg]
  intro hc
  exact absurd hc.2.2.2 (not_lt.mpr h1)

/-- C3 witness: a 50 Hz channel (Nyquist 25 Hz) fails the filter stage. -/
theorem c3_low_sample_rate_fails_filter_witness :
    filterStage demoFilt [1, 2] 50 = .error .InvalidSampleRate :=
  c3_low_sample_rate_fails_filter demoFilt [1, 2] 50 (by norm_num) (by norm_num)

/-- C4: the orchestrator does NOT isolate a failing channel.  A recording
whose first channel is sampled at 50 Hz makes the whole analyze_edf call an
error: the properly-sampled 256 Hz sibling yields no profile, because the
loop at lines 46-59 has no per-channel exception handling. -/
theorem c4_channel_failure_aborts_whole_analysis :
    analyze_edf demoWelch demoFilt
      [("C3", 50, [1, 2]), ("O1", 256, [1, 2])] = .error .InvalidSampleRate := by
  norm_num [analyze_edf, analyzeChannels, filterStage]

/-- C5: the source's spectral step has no InsufficientSamples guard: on a
3-sample channel with a 2 s window at 100 Hz (segment length 200 > 3), the
spec-modelled checked estimator fails, while the source's bandpower still
returns an integrated value. -/
theorem c5_no_insufficient_samples_guard :
    spectralEstimateChecked demoWelch 2 100 [1, 2, 3] = .error .InsufficientSamples ∧
    bandpower demoWelch [1, 2, 3] 100 1 45 = 9 := by
  constructor
  · norm_num [spectralEstimateChecked]
  · norm_num [bandpower, bandpowerPSD, bandSelect, trapz, demoWelch,
      List.enum, List.enumFrom, List.filter]

/-- C6: bandpower's numpy-mask-and-trapz computation selects exactly the
bins with band.low ≤ f ≤ band.high, inclusive at both endpoints, and equals
the trapezoidal-rule integral over those selected bins. -/
theorem c6_bandpower_selects_inclusive_and_integrates
    (freqs vals : List ℚ) (lo hi : ℚ) :
    bandpowerArrays freqs vals lo hi = trapz (bandSelect lo hi (freqs.zip vals)) ∧
    ∀ f v, (f, v) ∈ bandSelect lo hi (freqs.zip vals) ↔
      (f, v) ∈ freqs.zip vals ∧ lo ≤ f ∧ f ≤ hi := by
  constructor
  · unfold bandpowerArrays maskSelect bandSelect
    exact trapzXY_map _
  · intro f v
    simp [bandSelect, List.mem_filter]

/-- C7: f.close() at line 61 is skipped when a channel raises: the failing
50 Hz recording leaves the handle open, while the clean 256 Hz recording
closes it — so the handle is closed only on the all-channels-succeed path,
not on every exit path. -/
theorem c7_handle_not_closed_on_failure :
    closesHandle demoWelch demoFilt [("C3", 50, [1, 2])] = false ∧
    closesHandle demoWelch demoFilt [("O1", 256, [1, 2])] = true := by
  constructor
  · norm_num [closesHandle, analyzeChannels, filterStage]
  · norm_num [closesHandle, analyzeChannels, filterStage]

/-- One channel's inner annotation loop, as an ordered filter-and-map over
its profile. -/
lemma annotateChannel_eq (ch : String) (bands : List (String × ℚ)) :
    annotateChannel ch bands =
      (bands.filter (fun bv => decide ((3 : ℚ) / 10 < bv.2))).map
        (fun bv => (ch, bv.1, regionsFor ch)) := by
  induction bands with
  | nil => rfl
  | cons bv rest ih =>
    by_cases h : (3 : ℚ) / 10 < bv.2
    · simp [annotateChannel, List.filter_cons, h, ih]
    · simp [annotateChannel, List.filter_cons, h, ih]

/-- The whole annotation pass as an ordered comprehension over channels. -/
lemma autoAnnotationEvents_eq (results : List (String × List (String × ℚ))) :
    autoAnnotationEvents results =
      results.flatMap (fun cb =>
        (cb.2.filter (fun bv => decide ((3 : ℚ) / 10 < bv.2))).map
          (fun bv => (cb.1, bv.1, regionsFor cb.1))) := by
  induction results with
  | nil => rfl
  | cons cb rest ih => simp [autoAnnotationEvents, List.flatMap_cons, annotateChannel_eq, ih]

/-- C9: the auto-interpretation pass emits one event per (channel, band)
pair whose relative power strictly exceeds 0.3, carrying the Brodmann
regions looked up for the channel (regionsFor defaults to the empty list
for unmapped channels); events are ordered by the result table's channel
insertion order and, within a channel, by the profile's band order — which,
for profiles the analysis builds, is exactly the canonical EEG_BANDS
registry order. -/
theorem c9_annotation_events (results : List (String × List (String × ℚ))) :
    autoAnnotationEvents results =
      results.flatMap (fun cb =>
        (cb.2.filter (fun bv => decide ((3 : ℚ) / 10 < bv.2))).map
          (fun bv => (cb.1, bv.1, regionsFor cb.1))) ∧
    (∀ ch band regs, (ch, band, regs) ∈ autoAnnotationEvents results ↔
      ∃ bands val, (ch, bands) ∈ results ∧ (band, val) ∈ bands ∧
        (3 : ℚ) / 10 < val ∧ regs = regionsFor ch) ∧
    (∀ welch signal fs, (channelProfile welch signal fs).map (fun bv => bv.1) =
      EEG_BANDS.map (fun b => b.1)) := by
  refine ⟨autoAnnotationEvents_eq results, ?_, ?_⟩
  · intro ch band regs
    rw [autoAnnotationEvents_eq]
    simp only [List.mem_flatMap, List.mem_map, List.mem_filter, decide_eq_true_eq,
      Prod.mk.injEq]
    constructor
    · rintro ⟨⟨c, bands⟩, hcb, ⟨b, v⟩, ⟨hbv, hv⟩, hc, hb, hregs⟩
      subst hc; subst hb
      exact ⟨bands, v, hcb, hbv, hv, hregs.symm⟩
    · rintro ⟨bands, val, hcb, hbv, hv, hregs⟩
      exact ⟨(ch, bands), hcb, (band, val), ⟨hbv, hv⟩, rfl, rfl, hregs.symm⟩
  · intro welch signal fs
    rfl

/-- The upload fold rewritten through the last .edf upload, for any
accumulator. -/
lemma foldl_edf {α : Type} (analyze : String → α) :
    ∀ (files : List String) (acc : Option α),
      files.foldl (fun a name => if isEdfName name then some (analyze name) else a) acc =
        (files.reverse.find? isEdfName).elim acc (fun n => some (analyze n)) := by
  intro files
  induction files with
  | nil => intro acc; rfl
  | cons n rest ih =>
    intro acc
    rw [List.foldl_cons, ih, List.reverse_cons, List.find?_append]
    cases hfound : rest.reverse.find? isEdfName with
    | some x => simp [Option.or_some]
    | none =>
      by_cases hn : isEdfName n
      · simp [hn, Option.none_or]
      · simp [hn, Option.none_or]

/-- C10: when a batch holds several .edf uploads, each analysis reassigns
the edf_results variable wholesale, so the value handed to report
generation is the fresh analysis of the LAST .edf file in upload order
(none when the batch has no .edf); results of distinct recordings are
never merged. -/
theorem c10_last_edf_replaces_previous {α : Type} (analyze : String → α)
    (files : List String) :
    finalEdfResults analyze files =
      (files.reverse.find? isEdfName).map (fun n => analyze n) := by
  rw [finalEdfResults, foldl_edf analyze files none]
  cases files.reverse.find? isEdfName with
  | some x => rfl
  | none => rfl

/-- Unfolding equation of trapz on the empty bin list. -/
lemma trapz_nil : trapz [] = 0 := rfl

/-- Unfolding equation of trapz on a single bin. -/
lemma trapz_single (a : ℚ × ℚ) : trapz [a] = 0 := rfl

/-- Unfolding equation of trapz on two or more bins. -/
lemma trapz_cons2 (a b : ℚ × ℚ) (t : PSD) :
    trapz (a :: b :: t) = (b.1 - a.1) * (a.2 + b.2) / 2 + trapz (b :: t) := rfl

/-- With ascending frequencies and nonnegative powers every trapezoid term
is nonnegative, so the integral is. -/
lemma trapz_nonneg : ∀ (l : PSD), l.Pairwise (fun p q => p.1 ≤ q.1) →
    (∀ p ∈ l, 0 ≤ p.2) → 0 ≤ trapz l := by
  intro l
  induction l with
  | nil => intro _ _; rw [trapz_nil]
  | cons a t ih =>
    intro hs hn
    cases t with
    | nil => rw [trapz_single]
    | cons b t2 =>
      rw [trapz_cons2]
      obtain ⟨ha, hs2⟩ := List.pairwise_cons.mp hs
      have hab : a.1 ≤ b.1 := ha b (List.mem_cons_self b t2)
      have hterm : 0 ≤ (b.1 - a.1) * (a.2 + b.2) / 2 :=
        div_nonneg (mul_nonneg (sub_nonneg.mpr hab)
          (add_nonneg (hn a (List.mem_cons_self a _)) (hn b (by simp)))) (by norm_num)
      exact add_nonneg hterm (ih hs2 (fun p hp => hn p (List.mem_cons_of_mem a hp)))

/-- Dropping the first bin of a sorted nonnegative PSD cannot increase the
integral. -/
lemma trapz_cons_le (a : ℚ × ℚ) (t : PSD) (hs : (a :: t).Pairwise (fun p q => p.1 ≤ q.1))
    (hn : ∀ p ∈ a :: t, 0 ≤ p.2) : trapz t ≤ trapz (a :: t) := by
  cases t with
  | nil => rw [trapz_nil, trapz_single]
  | cons b t2 =>
    rw [trapz_cons2]
    obtain ⟨ha, _⟩ := List.pairwise_cons.mp hs
    have hab : a.1 ≤ b.1 := ha b (List.mem_cons_self b t2)
    have hterm : 0 ≤ (b.1 - a.1) * (a.2 + b.2) / 2 :=
      div_nonneg (mul_nonneg (sub_nonneg.mpr hab)
        (add_nonneg (hn a (List.mem_cons_self a _)) (hn b (by simp)))) (by norm_num)
    exact le_add_of_nonneg_left hterm

/-- A suffix of a sorted nonnegative PSD has an integral bounded by the
whole list's. -/
lemma trapz_suffix_le : ∀ (l₁ l₂ : PSD),
    (l₁ ++ l₂).Pairwise (fun p q => p.1 ≤ q.1) → (∀ p ∈ l₁ ++ l₂, 0 ≤ p.2) →
    trapz l₂ ≤ trapz (l₁ ++ l₂) := by
  intro l₁
  induction l₁ with
  | nil => intro l₂ _ _; rw [List.nil_append]
  | cons a t ih =>
    intro l₂ hs hn
    simp only [List.cons_append] at hs hn ⊢
    calc trapz l₂ ≤ trapz (t ++ l₂) :=
          ih l₂ (List.pairwise_cons.mp hs).2 (fun p hp => hn p (List.mem_cons_of_mem a hp))
      _ ≤ trapz (a :: (t ++ l₂)) := trapz_cons_le a (t ++ l₂) hs hn

/-- A prefix of a sorted nonnegative PSD has an integral bounded by the
whole list's. -/
lemma trapz_prefix_le : ∀ (l₁ l₂ : PSD),
    (l₁ ++ l₂).Pairwise (fun p q => p.1 ≤ q.1) → (∀ p ∈ l₁ ++ l₂, 0 ≤ p.2) →
    trapz l₁ ≤ trapz (l₁ ++ l₂) := by
  intro l₁
  induction l₁ with
  | nil =>
    intro l₂ hs hn
    rw [List.nil_append, trapz_nil]
    exact trapz_nonneg l₂ hs hn
  | cons a t ih =>
    intro l₂ hs hn
    cases t with
    | nil =>
      rw [trapz_single]
      simp only [List.cons_append, List.nil_append] at hs hn ⊢
      exact trapz_nonneg (a :: l₂) hs hn
    | cons b t2 =>
      simp only [List.cons_append] at hs hn ⊢
      rw [trapz_cons2, trapz_cons2]
      apply add_le_add_left
      have hrest : trapz (b :: t2) ≤ trapz ((b :: t2) ++ l₂) :=
        ih l₂ (List.pairwise_cons.mp hs).2 (fun p hp => hn p (List.mem_cons_of_mem a hp))
      simpa using hrest

/-- Tightening the band to a subinterval of [1, 45] commutes with first
restricting to the broadband bins. -/
lemma filter_stronger (p q : (ℚ × ℚ) → Bool) (himp : ∀ a, p a = true → q a = true) :
    ∀ (l : PSD), l.filter p = (l.filter q).filter p := by
  intro l
  induction l with
  | nil => rfl
  | cons a t ih =>
    by_cases hp : p a = true
    · have hq := himp a hp
      simp only [List.filter_cons, hp, hq, if_true]
      rw [ih]
    · by_cases hq : q a = true
      · simp only [List.filter_cons, hp, hq, if_true, if_false]
        rw [ih]
      · simp only [List.filter_cons, hp, hq, if_false]
        exact ih

/-- A band inside [1, 45] selects a subset of the broadband bins. -/
lemma bandSelect_sub (lo hi : ℚ) (hlo : 1 ≤ lo) (hhi : hi ≤ 45) (psd : PSD) :
    bandSelect lo hi psd = bandSelect lo hi (bandSelect 1 45 psd) := by
  unfold bandSelect
  apply filter_stronger
  intro a ha
  simp only [decide_eq_true_eq] at ha ⊢
  exact ⟨le_trans hlo ha.1, le_trans ha.2 hhi⟩

/-- On a sorted list all of whose frequencies already clear the lower bound,
the band selection is a prefix. -/
lemma bandSelect_prefix (lo hi : ℚ) : ∀ (l : PSD),
    l.Pairwise (fun p q => p.1 ≤ q.1) → (∀ p ∈ l, lo ≤ p.1) →
    ∃ t2, l = bandSelect lo hi l ++ t2 := by
  intro l
  induction l with
  | nil => exact fun _ _ => ⟨[], rfl⟩
  | cons a t ih =>
    intro hs hlo
    by_cases ha : a.1 ≤ hi
    · have hpa : decide (lo ≤ a.1 ∧ a.1 ≤ hi) = true := by
        simp [hlo a (List.mem_cons_self a t), ha]
      obtain ⟨t2, ht⟩ := ih (List.pairwise_cons.mp hs).2
        (fun p hp => hlo p (List.mem_cons_of_mem a hp))
      refine ⟨t2, ?_⟩
      simp only [bandSelect, List.filter_cons, hpa, if_true, List.cons_append]
      simp only [bandSelect] at ht
      exact congrArg (a :: ·) ht
    · refine ⟨a :: t, ?_⟩
      have hempty : bandSelect lo hi (a :: t) = [] := by
        unfold bandSelect
        rw [List.filter_eq_nil_iff]
        intro p hp
        have hge : a.1 ≤ p.1 := by
          rcases List.mem_cons.mp hp with h | h
          · rw [h]
          · exact (List.pairwise_cons.mp hs).1 p h
        simp only [decide_eq_true_eq, not_and, not_le]
        intro _
        exact lt_of_not_le (fun hle => ha (le_trans hge hle))
      rw [hempty, List.nil_append]

/-- On a sorted list, the band selection (by an interval predicate) is a
contiguous run: the list splits as prefix ++ selection ++ suffix. -/
lemma bandSelect_infix (lo hi : ℚ) : ∀ (l : PSD),
    l.Pairwise (fun p q => p.1 ≤ q.1) →
    ∃ l₁ l₂, l = l₁ ++ bandSelect lo hi l ++ l₂ := by
  intro l
  induction l with
  | nil => exact fun _ => ⟨[], [], rfl⟩
  | cons a t ih =>
    intro hs
    by_cases ha : lo ≤ a.1 ∧ a.1 ≤ hi
    · obtain ⟨t2, ht⟩ := bandSelect_prefix lo hi t (List.pairwise_cons.mp hs).2
        (fun p hp => le_trans ha.1 ((List.pairwise_cons.mp hs).1 p hp))
      have hpa : decide (lo ≤ a.1 ∧ a.1 ≤ hi) = true := by simp [ha]
      refine ⟨[], t2, ?_⟩
      simp only [bandSelect, List.filter_cons, hpa, if_true, List.nil_append,
        List.cons_append]
      simp only [bandSelect] at ht
      exact congrArg (a :: ·) ht
    · obtain ⟨l₁, l₂, h⟩ := ih (List.pairwise_cons.mp hs).2
      have hpa : decide (lo ≤ a.1 ∧ a.1 ≤ hi) = false := by simp [ha]
      refine ⟨a :: l₁, l₂, ?_⟩
      simp only [bandSelect, List.filter_cons, hpa, if_false, List.cons_append]
      simp only [bandSelect] at h
      exact congrArg (a :: ·) h

/-- A contiguous run of a sorted nonnegative PSD has an integral bounded by
the whole list's. -/
lemma trapz_infix_le (B M l₁ l₂ : PSD) (hB : B = l₁ ++ M ++ l₂)
    (hsort : B.Pairwise (fun p q => p.1 ≤ q.1)) (hnn : ∀ p ∈ B, 0 ≤ p.2) :
    trapz M ≤ trapz B := by
  subst hB
  have hs1 : (l₁ ++ (M ++ l₂)).Pairwise (fun p q => p.1 ≤ q.1) := by
    rwa [List.append_assoc] at hsort
  have hn1 : ∀ p ∈ l₁ ++ (M ++ l₂), 0 ≤ p.2 :=
    fun p hp => hnn p ((List.append_assoc l₁ M l₂).symm ▸ hp)
  have hsub2 : (M ++ l₂).Sublist (l₁ ++ (M ++ l₂)) := List.sublist_append_right l₁ _
  have hs2 := List.Pairwise.sublist hsub2 hs1
  have hn2 : ∀ p ∈ M ++ l₂, 0 ≤ p.2 := fun p hp => hn1 p (hsub2.mem hp)
  calc trapz M ≤ trapz (M ++ l₂) := trapz_prefix_le M l₂ hs2 hn2
    _ ≤ trapz (l₁ ++ (M ++ l₂)) := trapz_suffix_le l₁ (M ++ l₂) hs1 hn1
    _ = trapz (l₁ ++ M ++ l₂) := by rw [List.append_assoc]

/-- For a sorted nonnegative PSD, a band inside [1, 45] has nonnegative
power bounded by the broadband power. -/
lemma bandpower_between (psd : PSD) (lo hi : ℚ)
    (hsort : psd.Pairwise (fun p q => p.1 ≤ q.1)) (hnn : ∀ p ∈ psd, 0 ≤ p.2)
    (hlo : 1 ≤ lo) (hhi : hi ≤ 45) :
    0 ≤ bandpowerPSD psd lo hi ∧ bandpowerPSD psd lo hi ≤ bandpowerPSD psd 1 45 := by
  have hBsort : (bandSelect 1 45 psd).Pairwise (fun p q => p.1 ≤ q.1) :=
    List.Pairwise.sublist (List.filter_sublist psd) hsort
  have hBnn : ∀ p ∈ bandSelect 1 45 psd, 0 ≤ p.2 := by
    intro p hp
    exact hnn p (List.mem_of_mem_filter hp)
  have hsub := bandSelect_sub lo hi hlo hhi psd
  obtain ⟨l₁, l₂, hB⟩ := bandSelect_infix lo hi (bandSelect 1 45 psd) hBsort
  have hmid_sort : (bandSelect lo hi (bandSelect 1 45 psd)).Pairwise (fun p q => p.1 ≤ q.1) :=
    List.Pairwise.sublist (List.filter_sublist _) hBsort
  constructor
  · rw [bandpowerPSD, hsub]
    exact trapz_nonneg _ hmid_sort (fun p hp => hBnn p (List.mem_of_mem_filter hp))
  · rw [bandpowerPSD, bandpowerPSD, hsub]
    exact trapz_infix_le (bandSelect 1 45 psd) (bandSelect lo hi (bandSelect 1 45 psd))
      l₁ l₂ hB hBsort hBnn

/-- C2: for every channel and canonical band, given that the spectral
estimator's bins are frequency-ascending with nonnegative powers (as
Welch's method produces) — so each band's bins are a subset of the
broadband [1,45] bins — the stored relative power lies in [0, 1] whenever
the broadband power is strictly positive, and is exactly 0 when the
broadband power is 0. -/
theorem c2_relative_power_in_unit_interval (welch : WelchModel) (signal : List ℚ)
    (fs : ℚ) (name : String) (lo hi r : ℚ)
    (hmem : (name, lo, hi) ∈ EEG_BANDS)
    (hsort : (welch signal fs).Pairwise (fun p q => p.1 ≤ q.1))
    (hnn : ∀ p ∈ welch signal fs, 0 ≤ p.2)
    (hr : List.lookup name (channelProfile welch signal fs) = some r) :
    (0 < bandpowerPSD (welch signal fs) 1 45 → 0 ≤ r ∧ r ≤ 1) ∧
    (bandpowerPSD (welch signal fs) 1 45 = 0 → r = 0) := by
  have hb : 1 ≤ lo ∧ hi ≤ 45 := by fin_cases hmem <;> norm_num
  have hlk := channelProfile_lookup welch signal fs name lo hi hmem
  rw [hr] at hlk
  have hrv : r = relPowerOf (welch signal fs) (bandpowerPSD (welch signal fs) 1 45) lo hi :=
    Option.some.inj hlk
  obtain ⟨hge, hle⟩ := bandpower_between (welch signal fs) lo hi hsort hnn hb.1 hb.2
  subst hrv
  constructor
  · intro htot
    unfold relPowerOf
    rw [if_pos htot]
    exact ⟨div_nonneg hge (le_of_lt htot), (div_le_one htot).mpr hle⟩
  · intro htot
    simp [relPowerOf, htot]

/-- C2 witness: a concrete sorted nonnegative estimate with positive
broadband power, whose Delta relative power is 1 ∈ [0, 1]. -/
theorem c2_relative_power_in_unit_interval_witness :
    (0 < bandpowerPSD (demoWelch [1, 2] 4) 1 45 → 0 ≤ (1 : ℚ) ∧ (1 : ℚ) ≤ 1) ∧
    (bandpowerPSD (demoWelch [1, 2] 4) 1 45 = 0 → (1 : ℚ) = 0) :=
  c2_relative_power_in_unit_interval demoWelch [1, 2] 4 "Delta" 1 4 1
    (by decide)
    (by norm_num [demoWelch, List.enum, List.enumFrom, List.pairwise_cons])
    (by norm_num [demoWelch, List.enum, List.enumFrom])
    (by norm_num [channelProfile, EEG_BANDS, relPowerOf, bandpowerPSD, bandSelect, trapz,
      demoWelch, List.enum, List.enumFrom, List.filter, List.lookup])

/-- Summing a uniformly scaled sample list scales the sum. -/
lemma sum_map_scale (g : ℚ) : ∀ (xs : List ℚ), (xs.map (fun x => g * x)).sum = g * xs.sum := by
  intro xs
  induction xs with
  | nil => simp
  | cons a t ih => simp [List.map_cons, List.sum_cons, ih, mul_add]

/-- np.mean is homogeneous in a uniform gain. -/
lemma mean_scale (g : ℚ) (xs : List ℚ) :
    mean (xs.map (fun x => g * x)) = g * mean xs := by
  unfold mean
  rw [sum_map_scale, List.length_map, mul_div_assoc]

/-- De-meaning commutes with a uniform gain on the raw samples. -/
lemma demean_scale (g : ℚ) (xs : List ℚ) :
    demean (xs.map (fun x => g * x)) = (demean xs).map (fun x => g * x) := by
  unfold demean
  simp only [mean_scale, List.map_map]
  congr 1
  funext x
  simp only [Function.comp_apply]
  ring

/-- Band selection only reads frequencies, so it commutes with scaling the
power values. -/
lemma bandSelect_scaleVals (lo hi c : ℚ) : ∀ (psd : PSD),
    bandSelect lo hi (psd.map (fun p => (p.1, c * p.2))) =
      (bandSelect lo hi psd).map (fun p => (p.1, c * p.2)) := by
  intro psd
  induction psd with
  | nil => rfl
  | cons a t ih =>
    unfold bandSelect at ih ⊢
    by_cases ha : lo ≤ a.1 ∧ a.1 ≤ hi
    · simp only [List.map_cons, List.filter_cons, decide_eq_true_eq, ha, and_self, if_true]
      rw [ih]
    · simp only [List.map_cons, List.filter_cons, decide_eq_true_eq, ha, if_false]
      exact ih

/-- The trapezoidal integral is homogeneous in the power values. -/
lemma trapz_scaleVals (c : ℚ) : ∀ (psd : PSD),
    trapz (psd.map (fun p => (p.1, c * p.2))) = c * trapz psd := by
  intro psd
  induction psd with
  | nil => simp [trapz_nil]
  | cons a t ih =>
    cases t with
    | nil => simp [trapz_single]
    | cons b t2 =>
      simp only [List.map_cons] at ih ⊢
      rw [trapz_cons2, trapz_cons2, ih]
      ring

/-- Band power is homogeneous in the power values. -/
lemma bandpowerPSD_scaleVals (c lo hi : ℚ) (psd : PSD) :
    bandpowerPSD (psd.map (fun p => (p.1, c * p.2))) lo hi =
      c * bandpowerPSD psd lo hi := by
  unfold bandpowerPSD
  rw [bandSelect_scaleVals, trapz_scaleVals]

/-- Scaling all PSD values by a positive factor leaves the relative power
untouched: it cancels in the band / broadband ratio, and preserves the
zero-broadband branch. -/
lemma relPowerOf_scaleVals (c lo hi : ℚ) (psd : PSD) (hc : 0 < c) :
    relPowerOf (psd.map (fun p => (p.1, c * p.2)))
      (bandpowerPSD (psd.map (fun p => (p.1, c * p.2))) 1 45) lo hi =
    relPowerOf psd (bandpowerPSD psd 1 45) lo hi := by
  unfold relPowerOf
  rw [bandpowerPSD_scaleVals, bandpowerPSD_scaleVals]
  by_cases h : 0 < bandpowerPSD psd 1 45
  · rw [if_pos h, if_pos (mul_pos hc h), mul_div_mul_left _ _ (ne_of_gt hc)]
  · have hcn : ¬0 < c * bandpowerPSD psd 1 45 :=
      fun hct => h ((mul_pos_iff_of_pos_left hc).mp hct)
    rw [if_neg h, if_neg hcn]

/-- C8: multiplying all raw samples of a channel by a positive gain g
before filtering leaves the channel's entire relative-power profile
unchanged.  The filter model is assumed homogeneous at the de-meaned signal
(scipy.signal.filtfilt is a linear filter) and the estimator model is
assumed to scale its PSD values by g² at the filtered signal (Welch PSD is
quadratic in amplitude); de-meaning itself commutes with the gain, and the
gain cancels exactly in each band / broadband ratio. -/
theorem c8_uniform_gain_invariance (welch : WelchModel) (fm : FiltModel)
    (raw : List ℚ) (fs g : ℚ) (hg : 0 < g)
    (hfm : fm ((demean raw).map (fun x => g * x)) = (fm (demean raw)).map (fun x => g * x))
    (hw : welch ((fm (demean raw)).map (fun x => g * x)) fs =
      (welch (fm (demean raw)) fs).map (fun p => (p.1, g * g * p.2))) :
    channelProfile welch (fm (demean (raw.map (fun x => g * x)))) fs =
      channelProfile welch (fm (demean raw)) fs := by
  rw [demean_scale, hfm]
  simp only [channelProfile, hw]
  congr 1
  funext b
  exact congrArg (Prod.mk b.1) (relPowerOf_scaleVals (g * g) b.2.1 b.2.2 _ (mul_pos hg hg))

/-- C8 witness: doubling a concrete two-sample channel leaves its profile
unchanged. -/
theorem c8_uniform_gain_invariance_witness :
    channelProfile demoWelch (demoFilt (demean ([1, 2].map (fun x => (2 : ℚ) * x)))) 1 =
      channelProfile demoWelch (demoFilt (demean [1, 2])) 1 :=
  c8_uniform_gain_invariance demoWelch demoFilt [1, 2] 1 2
    (by norm_num)
    (by norm_num [demoFilt])
    (by norm_num [demoWelch, demoFilt, demean, mean, List.enum, List.enumFrom])

end DrAsh
